import Mathlib

/-!
Verification of the pull-request drafting and parsing pipeline of
`pull_request.go` (package main).

Go strings are modelled as lists of characters (`GoStr`).  Every function
below is translated from the corresponding Go function; the regular
expressions used by the source are translated to the direct string
operations they denote, as recorded in the comments.
-/

/-- A Go string, modelled as its sequence of characters. -/
abbrev GoStr := List Char

/-- The character class of the Go regexp escape backslash-s, namely
tab, newline, form feed, carriage return and space.  The source tests
lines against the regexp backslash-S, i.e. the complement of this class. -/
def reIsSpace (c : Char) : Bool :=
  c = ' ' || c = '\t' || c = '\n' || c = '\x0c' || c = '\r'

/-- Translation of `regexp.MustCompile("\\S").MatchString line` in
`readTitleAndBody`: the line holds at least one character outside the
regexp whitespace class. -/
def hasNonSpace (s : GoStr) : Bool := s.any fun c => !reIsSpace c

/-- Go `unicode.IsSpace`, used by `strings.TrimSpace`: the White_Space
code points. -/
def goIsSpace (c : Char) : Bool :=
  c = ' ' || c = '\t' || c = '\n' || c = '\x0b' || c = '\x0c' || c = '\r' ||
  c.val = 0x85 || c.val = 0xA0 || c.val = 0x1680 ||
  (0x2000 ≤ c.val && c.val ≤ 0x200A) ||
  c.val = 0x2028 || c.val = 0x2029 || c.val = 0x202F ||
  c.val = 0x205F || c.val = 0x3000

/-- Go `strings.TrimSpace`: drop Unicode white space from both ends. -/
def trimSpace (s : GoStr) : GoStr :=
  ((s.dropWhile goIsSpace).reverse.dropWhile goIsSpace).reverse

/-- Go `strings.Split s sep` for a one-character separator `sep`:
always returns at least one part, and exactly `n+1` parts when `s`
holds `n` separators. -/
def splitOnChar (sep : Char) : GoStr → List GoStr
  | [] => [[]]
  | c :: rest =>
    if c = sep then [] :: splitOnChar sep rest
    else
      match splitOnChar sep rest with
      | [] => [[c]]
      | p :: tl => (c :: p) :: tl

/-- Go `strings.Join parts sep` for a one-character separator. -/
def joinSep (sep : Char) : List GoStr → GoStr
  | [] => []
  | [p] => p
  | p :: q :: rest => p ++ sep :: joinSep sep (q :: rest)

/-- Translation of `getLocalBranch` (pull_request.go:97-100):
`strings.Split(branchName, ":")` followed by taking the last element
(the split result is never empty). -/
def getLocalBranch (branchName : GoStr) : GoStr :=
  (splitOnChar ':' branchName).getLastD []

/-- Translation of `strings.HasPrefix line "#"` as used by
`readTitleAndBody` (pull_request.go:143). -/
def startsWithHash : GoStr → Bool
  | '#' :: _ => true
  | _ => false

/-- The read loop of `readTitleAndBody` (pull_request.go:141-152),
acting on the sequence of lines delivered by `readln` with a nil error.
A comment line stops the loop; a line with a non-space character while
the body is still empty joins the title parts; every other line joins
the body parts. -/
def parseLoop : List GoStr → List GoStr → List GoStr → List GoStr × List GoStr
  | [], ts, bs => (ts, bs)
  | l :: rest, ts, bs =>
    if startsWithHash l then (ts, bs)
    else if bs.isEmpty && hasNonSpace l then parseLoop rest (ts ++ [l]) bs
    else parseLoop rest ts (bs ++ [l])

/-- Translation of `readTitleAndBody` (pull_request.go:137-161) on the
line sequence produced by the reader: title parts joined by a space and
trimmed, body parts joined by newlines and trimmed. -/
def readTitleAndBody (lines : List GoStr) : GoStr × GoStr :=
  let p := parseLoop lines [] []
  (trimSpace (joinSep ' ' p.1), trimSpace (joinSep '\n' p.2))

/-- One newline-terminated line as delivered by `bufio.ReadLine`: the
newline is dropped, and a carriage return immediately before it is
dropped with it as a unit. -/
def dropCR (l : GoStr) : GoStr :=
  if l.getLast? = some '\r' then l.dropLast else l

/-- Whether the text holds a carriage return immediately followed by a
newline; exactly there `bufio.ReadLine` removes more than the newline. -/
def hasCRLF : GoStr → Bool
  | c :: d :: rest => (c = '\r' && d = '\n') || hasCRLF (d :: rest)
  | _ => false

/-- The line sequence `readln` (pull_request.go:163-174) yields for a
whole text: `bufio.ReadLine` returns each newline-terminated fragment
with the newline, and a carriage return immediately before it, removed;
a final fragment not terminated by a newline is returned verbatim, and
a final empty fragment (empty text, or a text ending in a newline) is
reported together with the end-of-input error, hence never reaches the
loop body of `readTitleAndBody`. -/
def goLines (t : GoStr) : List GoStr :=
  let ps := splitOnChar '\n' t
  ps.dropLast.map dropCR ++
    (if ps.getLast? = some [] then [] else [ps.getLastD []])

/-- `readTitleAndBody` applied to a reader over the text `t`, as
`readTitleAndBodyFromFile` does for the scratch file contents. -/
def readTitleAndBodyOfText (t : GoStr) : GoStr × GoStr :=
  readTitleAndBody (goLines t)

/-- One `readln` call modelled at the reader interface: a produced line
together with the error value returned alongside it. -/
abbrev ReadEvent := GoStr × Option GoStr

/-- The loop of `readTitleAndBody` over raw `readln` events: the loop
runs only while the error is nil, so the first event carrying an error
ends it (its line content is discarded), exactly as `for err == nil`. -/
def parseStream : List ReadEvent → List GoStr → List GoStr → List GoStr × List GoStr
  | [], ts, bs => (ts, bs)
  | (_, some _) :: _, ts, bs => (ts, bs)
  | (l, none) :: rest, ts, bs =>
    if startsWithHash l then (ts, bs)
    else if bs.isEmpty && hasNonSpace l then parseStream rest (ts ++ [l]) bs
    else parseStream rest ts (bs ++ [l])

/-- `readTitleAndBody` at the reader interface, keeping its error
result: the single return statement of the source (pull_request.go:160)
yields the joined, trimmed parts and a nil error. -/
def readTitleAndBodyE (stream : List ReadEvent) : GoStr × GoStr × Option GoStr :=
  let p := parseStream stream [] []
  (trimSpace (joinSep ' ' p.1), trimSpace (joinSep '\n' p.2), none)

/-- Right-strip of space characters: the effect of the POSIX regexp
replacement of one-or-more spaces before a line end by nothing
(pull_request.go:85,90) on a single line. -/
def rstripSpaces (l : GoStr) : GoStr :=
  (l.reverse.dropWhile fun c => c = ' ').reverse

/-- The POSIX multi-line replacement of the empty line-start match by
a hash and a space (pull_request.go:84,89): every line of the text,
blank lines included, gets the two-character prefix. -/
def prefixLines (t : GoStr) : GoStr :=
  joinSep '\n' ((splitOnChar '\n' t).map fun l => '#' :: ' ' :: l)

/-- The POSIX multi-line replacement of trailing space runs by nothing
(pull_request.go:85,90): right-strip spaces on every line. -/
def stripTrailing (t : GoStr) : GoStr :=
  joinSep '\n' ((splitOnChar '\n' t).map rstripSpaces)

/-- The commit-log processing of `writePullRequestChanges`
(pull_request.go:88-90): trim the log as a whole, prefix every line,
then strip trailing spaces from every line. -/
def processCommitLogs (logs : GoStr) : GoStr :=
  stripTrailing (prefixLines (trimSpace logs))

/-- The template literal of `writePullRequestChanges`
(pull_request.go:74-83) with base, head and the processed log
interpolated by `fmt.Sprintf`.  The spelling `reuqest` is the
source text verbatim. -/
def pullRequestMessage (base head logSection : GoStr) : GoStr :=
  "\n# Requesting a pull to ".toList ++ base ++ " from ".toList ++ head ++
  "\n#\n# Write a message for this pull reuqest. The first block\n# of the text is the title and the rest is description.\n#\n# Changes:\n#\n".toList ++
  logSection ++ "\n".toList

/-- Translation of `writePullRequestChanges` (pull_request.go:73-95):
the text written to the scratch file, given the collaborator result
`commitLogs` of `git.CommitLogs` for the two local branches. -/
def writePullRequestChanges (base head commitLogs : GoStr) : GoStr :=
  pullRequestMessage base head (processCommitLogs commitLogs)

/-- Translation of the regexp test `^[mg]?vim$` of `buildEditCommand`
(pull_request.go:106): with both anchors and no multi-line flag the
match succeeds exactly for the three whole strings vim, mvim, gvim. -/
def isVimVariant (e : GoStr) : Bool :=
  e = "vim".toList || e = "mvim".toList || e = "gvim".toList

/-- Translation of `buildEditCommand` (pull_request.go:102-114), with
the `git.Editor()` collaborator result passed in: the editor binary,
then for vim variants the flag and value tokens, then the file. -/
def buildEditCommand (gitEditor messageFile : GoStr) : List GoStr :=
  let cmd : List GoStr := [gitEditor]
  let cmd := if isVimVariant gitEditor
    then cmd ++ ["-c".toList, "set ft=gitcommit".toList]
    else cmd
  cmd ++ [messageFile]

/-- Collaborator results consumed by one run of `pullRequest`
(pull_request.go:44-71): the error of `writePullRequestChanges`, the
error of the editor run, the scratch file read-back (text or error)
and the error of `gh.CreatePullRequest`. -/
structure PRDeps where
  writeErr : Option GoStr
  editErr : Option GoStr
  readFile : Except GoStr GoStr
  createErr : Option GoStr

/-- Outcome of one run of `pullRequest`: `log.Fatal` terminates the
process with a non-zero status, so `fatalExit` records an abort before
any submission, while the submitted outcomes record that
`gh.CreatePullRequest` was invoked with the given parameters. -/
inductive PROutcome where
  | fatalExit (msg : GoStr)
  | submittedFatal (title body base head msg : GoStr)
  | submitted (title body base head : GoStr)
deriving DecidableEq

/-- Translation of `pullRequest` (pull_request.go:44-71): each failing
step calls `log.Fatal`; an empty parsed title aborts before
`gh.CreatePullRequest`; otherwise the request is submitted with the
parsed title and body and the raw base and head flags. -/
def pullRequest (d : PRDeps) (base head : GoStr) : PROutcome :=
  match d.writeErr with
  | some e => .fatalExit e
  | none =>
    match d.editErr with
    | some e => .fatalExit e
    | none =>
      match d.readFile with
      | .error e => .fatalExit e
      | .ok text =>
        let tb := readTitleAndBodyOfText text
        if tb.1.length = 0 then
          .fatalExit "Aborting due to empty pull request title".toList
        else
          match d.createErr with
          | some e => .submittedFatal tb.1 tb.2 base head e
          | none => .submitted tb.1 tb.2 base head

/-! ### Helper lemmas on the character-list operations -/

theorem dropWhile_head?_false {p : Char → Bool} {l : GoStr} {c : Char}
    (h : (l.dropWhile p).head? = some c) : p c = false := by
  induction l with
  | nil => simp [List.dropWhile] at h
  | cons a rest ih =>
    rw [List.dropWhile_cons] at h
    by_cases hp : p a
    · rw [if_pos hp] at h
      exact ih h
    · rw [if_neg hp] at h
      simp only [List.head?_cons, Option.some.injEq] at h
      subst h
      simpa using hp

theorem dropWhile_getLast?_of_ne_nil {p : Char → Bool} {l : GoStr}
    (h : l.dropWhile p ≠ []) : (l.dropWhile p).getLast? = l.getLast? := by
  induction l with
  | nil => simp at h
  | cons a rest ih =>
    rw [List.dropWhile_cons] at h ⊢
    by_cases hp : p a
    · rw [if_pos hp] at h ⊢
      have hrest : rest ≠ [] := by
        intro e
        subst e
        simp [List.dropWhile] at h
      rw [ih h]
      cases rest with
      | nil => exact absurd rfl hrest
      | cons b tl => exact (List.getLast?_cons_cons).symm
    · rw [if_neg hp]

theorem mem_of_mem_dropWhile {p : Char → Bool} {l : GoStr} {c : Char}
    (h : c ∈ l.dropWhile p) : c ∈ l := by
  induction l with
  | nil => simp at h
  | cons a rest ih =>
    rw [List.dropWhile_cons] at h
    by_cases hp : p a
    · rw [if_pos hp] at h
      exact List.mem_cons_of_mem a (ih h)
    · rw [if_neg hp] at h
      exact h

theorem mem_of_mem_trimSpace {s : GoStr} {c : Char} (h : c ∈ trimSpace s) : c ∈ s := by
  unfold trimSpace at h
  rw [List.mem_reverse] at h
  have h2 := mem_of_mem_dropWhile h
  rw [List.mem_reverse] at h2
  exact mem_of_mem_dropWhile h2

theorem trimSpace_getLast? {s : GoStr} {c : Char}
    (h : (trimSpace s).getLast? = some c) : goIsSpace c = false := by
  unfold trimSpace at h
  rw [List.getLast?_reverse] at h
  exact dropWhile_head?_false h

theorem trimSpace_head? {s : GoStr} {c : Char}
    (h : (trimSpace s).head? = some c) : goIsSpace c = false := by
  unfold trimSpace at h
  rw [List.head?_reverse] at h
  have hne : (((s.dropWhile goIsSpace).reverse).dropWhile goIsSpace) ≠ [] := by
    intro e
    rw [e] at h
    simp at h
  rw [dropWhile_getLast?_of_ne_nil hne, List.getLast?_reverse] at h
  exact dropWhile_head?_false h

theorem dropWhile_eq_self_of_head {p : Char → Bool} {l : GoStr}
    (h : ∀ c, l.head? = some c → p c = false) : l.dropWhile p = l := by
  cases l with
  | nil => rfl
  | cons a rest =>
    rw [List.dropWhile_cons, if_neg]
    simp [h a rfl]

theorem trimSpace_eq_self {s : GoStr}
    (hh : ∀ c, s.head? = some c → goIsSpace c = false)
    (hl : ∀ c, s.getLast? = some c → goIsSpace c = false) :
    trimSpace s = s := by
  unfold trimSpace
  rw [dropWhile_eq_self_of_head hh]
  rw [dropWhile_eq_self_of_head (fun c hc => hl c (by rwa [List.head?_reverse] at hc))]
  exact List.reverse_reverse s

theorem trimSpace_idem (s : GoStr) : trimSpace (trimSpace s) = trimSpace s :=
  trimSpace_eq_self (fun _ h => trimSpace_head? h) (fun _ h => trimSpace_getLast? h)

theorem trimSpace_cons_space {c : Char} {s : GoStr} (h : goIsSpace c = true) :
    trimSpace (c :: s) = trimSpace s := by
  unfold trimSpace
  rw [List.dropWhile_cons, if_pos h]

theorem splitOnChar_ne_nil (sep : Char) (s : GoStr) : splitOnChar sep s ≠ [] := by
  cases s with
  | nil => simp [splitOnChar]
  | cons c rest =>
    rw [splitOnChar]
    split
    · simp
    · split <;> simp

theorem getLast?_cons_of_ne_nil {α : Type} {l : List α} (h : l ≠ []) (a : α) :
    (a :: l).getLast? = l.getLast? := by
  cases l with
  | nil => exact absurd rfl h
  | cons b tl => exact List.getLast?_cons_cons

theorem getLastD_cons_of_ne_nil {α : Type} {l : List α} (h : l ≠ []) (a d : α) :
    (a :: l).getLastD d = l.getLastD d := by
  cases l with
  | nil => exact absurd rfl h
  | cons b tl => simp [List.getLastD_cons]

theorem mem_splitOnChar_not_sep {sep : Char} {s : GoStr} :
    ∀ l ∈ splitOnChar sep s, sep ∉ l := by
  induction s with
  | nil =>
    intro l hl
    simp [splitOnChar] at hl
    subst hl
    simp
  | cons c rest ih =>
    intro l hl
    rw [splitOnChar] at hl
    by_cases hc : c = sep
    · rw [if_pos hc] at hl
      rcases List.mem_cons.mp hl with h | h
      · subst h; simp
      · exact ih l h
    · rw [if_neg hc] at hl
      cases hps : splitOnChar sep rest with
      | nil => exact absurd hps (splitOnChar_ne_nil sep rest)
      | cons p tl =>
        rw [hps] at hl
        rcases List.mem_cons.mp hl with h | h
        · subst h
          intro hmem
          rcases List.mem_cons.mp hmem with h1 | h1
          · exact hc h1.symm
          · exact ih p (by rw [hps]; exact List.mem_cons_self p tl) h1
        · exact ih l (by rw [hps]; exact List.mem_cons_of_mem p h)

theorem joinSep_splitOnChar (sep : Char) (s : GoStr) :
    joinSep sep (splitOnChar sep s) = s := by
  induction s with
  | nil => rfl
  | cons c rest ih =>
    rw [splitOnChar]
    by_cases hc : c = sep
    · rw [if_pos hc]
      cases hps : splitOnChar sep rest with
      | nil => exact absurd hps (splitOnChar_ne_nil sep rest)
      | cons p tl =>
        rw [hps] at ih
        rw [joinSep, hc, ih]
        rfl
    · rw [if_neg hc]
      cases hps : splitOnChar sep rest with
      | nil => exact absurd hps (splitOnChar_ne_nil sep rest)
      | cons p tl =>
        rw [hps] at ih
        cases tl with
        | nil =>
          rw [joinSep] at ih ⊢
          rw [ih]
        | cons q tl2 =>
          rw [joinSep] at ih ⊢
          rw [List.cons_append, ih]

theorem splitOnChar_append {sep : Char} {a : GoStr} (ha : sep ∉ a) (t : GoStr) :
    splitOnChar sep (a ++ sep :: t) = a :: splitOnChar sep t := by
  induction a with
  | nil =>
    rw [List.nil_append, splitOnChar, if_pos rfl]
  | cons c a2 ih =>
    have hc : ¬c = sep := fun e => ha (List.mem_cons.mpr (Or.inl e.symm))
    rw [List.cons_append, splitOnChar, if_neg hc,
      ih (fun hm => ha (List.mem_cons_of_mem c hm))]

theorem splitOnChar_of_not_mem {sep : Char} {s : GoStr} (h : sep ∉ s) :
    splitOnChar sep s = [s] := by
  induction s with
  | nil => rfl
  | cons c rest ih =>
    have hc : ¬c = sep := fun e => h (List.mem_cons.mpr (Or.inl e.symm))
    rw [splitOnChar, if_neg hc, ih (fun hm => h (List.mem_cons_of_mem c hm))]

theorem two_le_length_splitOnChar {sep : Char} {s : GoStr} (h : sep ∈ s) :
    2 ≤ (splitOnChar sep s).length := by
  induction s with
  | nil => simp at h
  | cons c rest ih =>
    rw [splitOnChar]
    by_cases hc : c = sep
    · rw [if_pos hc]
      cases hps : splitOnChar sep rest with
      | nil => exact absurd hps (splitOnChar_ne_nil sep rest)
      | cons p tl => simp
    · rw [if_neg hc]
      have hmem : sep ∈ rest := by
        rcases List.mem_cons.mp h with h1 | h1
        · exact absurd h1.symm hc
        · exact h1
      cases hps : splitOnChar sep rest with
      | nil => exact absurd hps (splitOnChar_ne_nil sep rest)
      | cons p tl =>
        have h2 := ih hmem
        rw [hps] at h2
        simpa using h2

theorem joinSep_nil_cons (sep : Char) {ps : List GoStr} (h : ps ≠ []) :
    joinSep sep ([] :: ps) = sep :: joinSep sep ps := by
  cases ps with
  | nil => exact absurd rfl h
  | cons q tl => rfl

theorem not_mem_joinSep {c sep : Char} (hcs : c ≠ sep) :
    ∀ ps : List GoStr, (∀ p ∈ ps, c ∉ p) → c ∉ joinSep sep ps
  | [], _ => by simp [joinSep]
  | [p], h => by
    rw [joinSep]
    exact h p (List.mem_cons_self p [])
  | p :: q :: rest, h => by
    rw [joinSep]
    intro hmem
    rcases List.mem_append.mp hmem with h1 | h1
    · exact h p (by simp) h1
    · rcases List.mem_cons.mp h1 with h2 | h2
      · exact hcs h2
      · exact not_mem_joinSep hcs (q :: rest)
          (fun x hx => h x (List.mem_cons_of_mem p hx)) h2

theorem splitOnChar_getLast?_ne_nil {sep : Char} {s : GoStr} (hs : s ≠ [])
    (hlast : ∀ c, s.getLast? = some c → c ≠ sep) :
    (splitOnChar sep s).getLast? ≠ some [] := by
  induction s with
  | nil => exact absurd rfl hs
  | cons c rest ih =>
    rw [splitOnChar]
    by_cases hrest : rest = []
    · subst hrest
      have hc : ¬c = sep := hlast c rfl
      rw [if_neg hc]
      simp [splitOnChar]
    · have hl : ∀ d, rest.getLast? = some d → d ≠ sep := by
        intro d hd
        exact hlast d (by rw [getLast?_cons_of_ne_nil hrest, hd])
      have ihr := ih hrest hl
      by_cases hc : c = sep
      · rw [if_pos hc]
        rw [getLast?_cons_of_ne_nil (splitOnChar_ne_nil sep rest)]
        exact ihr
      · rw [if_neg hc]
        cases hps : splitOnChar sep rest with
        | nil => exact absurd hps (splitOnChar_ne_nil sep rest)
        | cons p tl =>
          rw [hps] at ihr
          cases tl with
          | nil => simp
          | cons q tl2 =>
            rw [List.getLast?_cons_cons]
            rw [List.getLast?_cons_cons] at ihr
            exact ihr

theorem reIsSpace_le_goIsSpace {c : Char} (h : reIsSpace c = true) :
    goIsSpace c = true := by
  have h5 : c = ' ' ∨ c = '\t' ∨ c = '\n' ∨ c = '\x0c' ∨ c = '\r' := by
    simpa [reIsSpace, or_assoc] using h
  rcases h5 with h | h | h | h | h <;> subst h <;> decide

theorem hasNonSpace_of_trimmed_ne_nil {s : GoStr} (hts : trimSpace s = s)
    (hne : s ≠ []) : hasNonSpace s = true := by
  cases hh : s.head? with
  | none =>
    cases s with
    | nil => exact absurd rfl hne
    | cons a tl => simp at hh
  | some c =>
    have hcs : goIsSpace c = false := trimSpace_head? (by rw [hts]; exact hh)
    have hre : reIsSpace c = false := by
      cases hrc : reIsSpace c
      · rfl
      · rw [reIsSpace_le_goIsSpace hrc] at hcs
        exact absurd hcs (by simp)
    unfold hasNonSpace
    rw [List.any_eq_true]
    exact ⟨c, List.mem_of_mem_head? hh, by rw [hre]; rfl⟩

theorem parseLoop_subset (lines : List GoStr) : ∀ (ts bs : List GoStr) (x : GoStr),
    (x ∈ (parseLoop lines ts bs).1 → x ∈ ts ∨ x ∈ lines) ∧
    (x ∈ (parseLoop lines ts bs).2 → x ∈ bs ∨ x ∈ lines) := by
  induction lines with
  | nil =>
    intro ts bs x
    rw [parseLoop]
    exact ⟨fun h => Or.inl h, fun h => Or.inl h⟩
  | cons l rest ih =>
    intro ts bs x
    rw [parseLoop]
    split
    · exact ⟨fun h => Or.inl h, fun h => Or.inl h⟩
    · split
      · constructor
        · intro h
          rcases (ih (ts ++ [l]) bs x).1 h with h1 | h1
          · rcases List.mem_append.mp h1 with h2 | h2
            · exact Or.inl h2
            · simp only [List.mem_singleton] at h2
              subst h2
              exact Or.inr (List.mem_cons_self _ _)
          · exact Or.inr (List.mem_cons_of_mem l h1)
        · intro h
          rcases (ih (ts ++ [l]) bs x).2 h with h1 | h1
          · exact Or.inl h1
          · exact Or.inr (List.mem_cons_of_mem l h1)
      · constructor
        · intro h
          rcases (ih ts (bs ++ [l]) x).1 h with h1 | h1
          · exact Or.inl h1
          · exact Or.inr (List.mem_cons_of_mem l h1)
        · intro h
          rcases (ih ts (bs ++ [l]) x).2 h with h1 | h1
          · rcases List.mem_append.mp h1 with h2 | h2
            · exact Or.inl h2
            · simp only [List.mem_singleton] at h2
              subst h2
              exact Or.inr (List.mem_cons_self _ _)
          · exact Or.inr (List.mem_cons_of_mem l h1)

theorem parseLoop_body_phase (lines : List GoStr) : ∀ ts bs : List GoStr, bs ≠ [] →
    (∀ l ∈ lines, startsWithHash l = false) →
    parseLoop lines ts bs = (ts, bs ++ lines) := by
  induction lines with
  | nil =>
    intro ts bs _ _
    simp [parseLoop]
  | cons l rest ih =>
    intro ts bs hbs hh
    have h1 : startsWithHash l = false := hh l (List.mem_cons_self l rest)
    have h2 : bs.isEmpty = false := by
      cases bs
      · exact absurd rfl hbs
      · rfl
    rw [parseLoop]
    simp only [h1, h2, Bool.false_and, Bool.false_eq_true, if_false]
    rw [ih ts (bs ++ [l]) (by simp) (fun x hx => hh x (List.mem_cons_of_mem l hx))]
    simp

theorem dropCR_nil : dropCR [] = [] := by decide

theorem dropCR_of_getLast_ne {l : GoStr} (h : l.getLast? ≠ some '\r') :
    dropCR l = l := by
  unfold dropCR
  rw [if_neg h]

theorem dropCR_trimmed {s : GoStr} (h : trimSpace s = s) : dropCR s = s := by
  apply dropCR_of_getLast_ne
  intro e
  have hg := trimSpace_getLast? (by rw [h]; exact e)
  exact absurd hg (by decide)

theorem mem_of_mem_dropCR {c : Char} {l : GoStr} (h : c ∈ dropCR l) : c ∈ l := by
  unfold dropCR at h
  split at h
  · exact List.mem_of_mem_dropLast h
  · exact h

theorem map_dropCR_eq_self {l : List GoStr}
    (h : ∀ p ∈ l, p.getLast? ≠ some '\r') : l.map dropCR = l := by
  induction l with
  | nil => rfl
  | cons p tl ih =>
    rw [List.map_cons, dropCR_of_getLast_ne (h p (List.mem_cons_self p tl)),
      ih (fun x hx => h x (List.mem_cons_of_mem p hx))]

theorem getLastD_mem_of_ne_nil {α : Type} :
    ∀ (l : List α) (d : α), l ≠ [] → l.getLastD d ∈ l
  | [], _, h => absurd rfl h
  | [x], d, _ => by
    rw [List.getLastD_cons]
    exact List.mem_cons_self x []
  | x :: y :: tl, d, _ => by
    rw [getLastD_cons_of_ne_nil (by simp) x d]
    exact List.mem_cons_of_mem x (getLastD_mem_of_ne_nil (y :: tl) d (by simp))

theorem dropLast_append_getLastD {α : Type} :
    ∀ (l : List α) (d : α), l ≠ [] → l.dropLast ++ [l.getLastD d] = l
  | [], _, h => absurd rfl h
  | [x], d, _ => by
    rw [List.getLastD_cons]
    rfl
  | x :: y :: tl, d, _ => by
    rw [List.dropLast_cons₂, getLastD_cons_of_ne_nil (by simp) x d,
      List.cons_append, dropLast_append_getLastD (y :: tl) d (by simp)]

theorem hasCRLF_cons_false (c : Char) (rest : GoStr)
    (h : hasCRLF (c :: rest) = false) : hasCRLF rest = false := by
  cases rest with
  | nil => rfl
  | cons d r2 =>
    rw [hasCRLF, Bool.or_eq_false_iff] at h
    exact h.2

theorem hasCRLF_append_false :
    ∀ (a b : GoStr), hasCRLF (a ++ b) = false → hasCRLF b = false
  | [], _, h => h
  | c :: a2, b, h =>
    hasCRLF_append_false a2 b (hasCRLF_cons_false c (a2 ++ b) h)

theorem split_dropLast_no_cr :
    ∀ (s : GoStr), hasCRLF s = false →
      ∀ p ∈ (splitOnChar '\n' s).dropLast, p.getLast? ≠ some '\r'
  | [], _, p, hp => by simp [splitOnChar] at hp
  | c :: rest, h, p, hp => by
    have hrest : hasCRLF rest = false := hasCRLF_cons_false c rest h
    by_cases hc : c = '\n'
    · cases hsp : splitOnChar '\n' rest with
      | nil => exact absurd hsp (splitOnChar_ne_nil '\n' rest)
      | cons q tl =>
        have he : splitOnChar '\n' (c :: rest) = [] :: q :: tl := by
          rw [splitOnChar, if_pos hc, hsp]
        rw [he, List.dropLast_cons₂] at hp
        rcases List.mem_cons.mp hp with e | e
        · subst e
          simp
        · exact split_dropLast_no_cr rest hrest p (by rw [hsp]; exact e)
    · cases hsp : splitOnChar '\n' rest with
      | nil => exact absurd hsp (splitOnChar_ne_nil '\n' rest)
      | cons q tl =>
        have he : splitOnChar '\n' (c :: rest) = (c :: q) :: tl := by
          rw [splitOnChar, if_neg hc, hsp]
        rw [he] at hp
        cases tl with
        | nil => simp at hp
        | cons q2 tl2 =>
          rw [List.dropLast_cons₂] at hp
          rcases List.mem_cons.mp hp with e | e
          · subst e
            cases hq : q with
            | nil =>
              subst hq
              obtain ⟨r2, hr2⟩ : ∃ r2, rest = '\n' :: r2 := by
                cases rest with
                | nil => simp [splitOnChar] at hsp
                | cons d r2 =>
                  by_cases hd : d = '\n'
                  · exact ⟨r2, by rw [hd]⟩
                  · exfalso
                    rw [splitOnChar, if_neg hd] at hsp
                    cases h0 : splitOnChar '\n' r2 with
                    | nil => exact absurd h0 (splitOnChar_ne_nil '\n' r2)
                    | cons p0 tl0 =>
                      rw [h0] at hsp
                      simp at hsp
              have hcr : ¬(c = '\r') := by
                intro e2
                subst e2
                rw [hr2, hasCRLF] at h
                simp at h
              intro e2
              rw [show (c :: ([] : GoStr)).getLast? = some c from rfl] at e2
              exact hcr (Option.some.inj e2)
            | cons a q2b =>
              subst hq
              rw [List.getLast?_cons_cons]
              have hmem : (a :: q2b) ∈ (splitOnChar '\n' rest).dropLast := by
                rw [hsp, List.dropLast_cons₂]
                exact List.mem_cons_self _ _
              exact split_dropLast_no_cr rest hrest _ hmem
          · have hmem : p ∈ (splitOnChar '\n' rest).dropLast := by
              rw [hsp, List.dropLast_cons₂]
              exact List.mem_cons_of_mem q e
            exact split_dropLast_no_cr rest hrest p hmem

theorem goLines_no_newline {t : GoStr} : ∀ l ∈ goLines t, '\n' ∉ l := by
  intro l hl
  simp only [goLines] at hl
  rcases List.mem_append.mp hl with h | h
  · rcases List.mem_map.mp h with ⟨q, hq, hql⟩
    have hq2 : '\n' ∉ q :=
      mem_splitOnChar_not_sep q (List.mem_of_mem_dropLast hq)
    intro hmem
    rw [← hql] at hmem
    exact hq2 (mem_of_mem_dropCR hmem)
  · split at h
    · simp at h
    · rcases List.mem_cons.mp h with e | e
      · subst e
        exact mem_splitOnChar_not_sep _
          (getLastD_mem_of_ne_nil _ _ (splitOnChar_ne_nil '\n' t))
      · simp at e

theorem title_no_newline (t : GoStr) : '\n' ∉ (readTitleAndBodyOfText t).1 := by
  intro hmem
  have h1 := mem_of_mem_trimSpace hmem
  have h2 : ∀ p ∈ (parseLoop (goLines t) [] []).1, '\n' ∉ p := by
    intro p hp
    rcases (parseLoop_subset (goLines t) [] [] p).1 hp with h3 | h3
    · simp at h3
    · exact goLines_no_newline p h3
  exact not_mem_joinSep (by decide) _ h2 h1

theorem parseLoop_cons_title (l : GoStr) (rest ts : List GoStr)
    (hh : startsWithHash l = false) (hns : hasNonSpace l = true) :
    parseLoop (l :: rest) ts [] = parseLoop rest (ts ++ [l]) [] := by
  rw [parseLoop]
  simp [hh, hns]

theorem parseLoop_cons_blank (l : GoStr) (rest ts bs : List GoStr)
    (hh : startsWithHash l = false) (hns : hasNonSpace l = false) :
    parseLoop (l :: rest) ts bs = parseLoop rest ts (bs ++ [l]) := by
  rw [parseLoop]
  simp [hh, hns]

/-- Parsing the reconstruction of an already parsed draft: a trimmed
title line without newlines, a separating blank line and a trimmed
body parse back to exactly the same pair, provided no line of the
reconstruction is a comment line and the body holds no carriage return
followed by a newline (which the reader would strip on re-reading). -/
theorem recon_parse (title body : GoStr)
    (ht : trimSpace title = title) (hb : trimSpace body = body)
    (hnl : '\n' ∉ title) (hbcr : hasCRLF body = false)
    (hhash : ∀ l ∈ goLines (title ++ '\n' :: '\n' :: body), startsWithHash l = false) :
    readTitleAndBodyOfText (title ++ '\n' :: '\n' :: body) = (title, body) := by
  have hsplit : splitOnChar '\n' (title ++ '\n' :: '\n' :: body)
      = title :: [] :: splitOnChar '\n' body := by
    rw [splitOnChar_append hnl, splitOnChar, if_pos rfl]
  by_cases hbe : body = []
  · subst hbe
    have hgl : goLines (title ++ '\n' :: '\n' :: []) = [title, []] := by
      simp only [goLines]
      rw [hsplit]
      rw [show splitOnChar '\n' ([] : GoStr) = [[]] from rfl]
      rw [if_pos (by rw [getLast?_cons_of_ne_nil (by simp),
        getLast?_cons_of_ne_nil (by simp)]; decide)]
      simp [dropCR_trimmed ht, dropCR_nil]
    by_cases hte : title = []
    · subst hte
      simp only [readTitleAndBodyOfText]
      rw [hgl]
      decide
    · have hh : startsWithHash title = false :=
        hhash title (by rw [hgl]; exact List.mem_cons_self _ _)
      have hns : hasNonSpace title = true := hasNonSpace_of_trimmed_ne_nil ht hte
      simp only [readTitleAndBodyOfText, readTitleAndBody]
      rw [hgl]
      have hpl : parseLoop [title, []] [] [] = ([title], [[]]) := by
        rw [parseLoop_cons_title title _ _ hh hns]
        rw [parseLoop_cons_blank [] _ _ _ rfl rfl]
        rfl
      rw [hpl]
      show (trimSpace title, trimSpace []) = (title, [])
      rw [ht]
      rfl
  · have hbl : ∀ c, body.getLast? = some c → ¬(c = '\n') := by
      intro c hc e
      have hg := trimSpace_getLast? (by rw [hb]; exact hc)
      subst e
      exact absurd hg (by decide)
    have hlastne : (splitOnChar '\n' body).getLast? ≠ some [] :=
      splitOnChar_getLast?_ne_nil hbe hbl
    have hne2 : splitOnChar '\n' body ≠ [] := splitOnChar_ne_nil '\n' body
    have hnocr : ∀ p ∈ (splitOnChar '\n' body).dropLast, p.getLast? ≠ some '\r' :=
      split_dropLast_no_cr body hbcr
    have hgl : goLines (title ++ '\n' :: '\n' :: body)
        = title :: [] :: splitOnChar '\n' body := by
      simp only [goLines]
      rw [hsplit]
      have hcond : (title :: [] :: splitOnChar '\n' body).getLast? ≠ some [] := by
        rw [getLast?_cons_of_ne_nil (by simp), getLast?_cons_of_ne_nil hne2]
        exact hlastne
      rw [if_neg hcond]
      cases hbp : splitOnChar '\n' body with
      | nil => exact absurd hbp hne2
      | cons q tl =>
        rw [hbp] at hnocr
        rw [List.dropLast_cons₂, List.dropLast_cons₂, List.map_cons, List.map_cons,
          dropCR_trimmed ht, dropCR_nil, map_dropCR_eq_self hnocr,
          getLastD_cons_of_ne_nil (by simp) title [],
          getLastD_cons_of_ne_nil (by simp) [] [],
          List.cons_append, List.cons_append,
          dropLast_append_getLastD (q :: tl) [] (by simp)]
    have hhb : ∀ l ∈ splitOnChar '\n' body, startsWithHash l = false := by
      intro l hl
      exact hhash l
        (by rw [hgl]; exact List.mem_cons_of_mem _ (List.mem_cons_of_mem _ hl))
    have hjoin : joinSep '\n' (splitOnChar '\n' body) = body :=
      joinSep_splitOnChar '\n' body
    by_cases hte : title = []
    · subst hte
      simp only [readTitleAndBodyOfText, readTitleAndBody]
      rw [hgl]
      have hpl : parseLoop ([] :: [] :: splitOnChar '\n' body) [] []
          = ([], [[], []] ++ splitOnChar '\n' body) := by
        rw [parseLoop_cons_blank [] _ _ _ rfl rfl]
        rw [parseLoop_cons_blank [] _ _ _ rfl rfl]
        rw [parseLoop_body_phase _ _ _ (by simp) hhb]
        rfl
      rw [hpl]
      show (trimSpace [], trimSpace (joinSep '\n' ([[], []] ++ splitOnChar '\n' body)))
        = ([], body)
      have hjs : joinSep '\n' ([[], []] ++ splitOnChar '\n' body)
          = '\n' :: '\n' :: body := by
        rw [show ([[], []] ++ splitOnChar '\n' body : List GoStr)
          = [] :: [] :: splitOnChar '\n' body from rfl]
        rw [joinSep_nil_cons '\n' (by simp), joinSep_nil_cons '\n' hne2, hjoin]
      rw [hjs, trimSpace_cons_space (by decide), trimSpace_cons_space (by decide), hb]
      rfl
    · have hh : startsWithHash title = false :=
        hhash title (by rw [hgl]; exact List.mem_cons_self _ _)
      have hns : hasNonSpace title = true := hasNonSpace_of_trimmed_ne_nil ht hte
      simp only [readTitleAndBodyOfText, readTitleAndBody]
      rw [hgl]
      have hpl : parseLoop (title :: [] :: splitOnChar '\n' body) [] []
          = ([title], [[]] ++ splitOnChar '\n' body) := by
        rw [parseLoop_cons_title title _ _ hh hns]
        rw [parseLoop_cons_blank [] _ _ _ rfl rfl]
        rw [parseLoop_body_phase _ _ _ (by simp) hhb]
        rfl
      rw [hpl]
      show (trimSpace title, trimSpace (joinSep '\n' ([[]] ++ splitOnChar '\n' body)))
        = (title, body)
      have hjs : joinSep '\n' ([[]] ++ splitOnChar '\n' body) = '\n' :: body := by
        rw [show ([[]] ++ splitOnChar '\n' body : List GoStr)
          = [] :: splitOnChar '\n' body from rfl]
        rw [joinSep_nil_cons '\n' hne2, hjoin]
      rw [hjs, trimSpace_cons_space (by decide), hb, ht]

theorem splitOnChar_joinSep_eq {sep : Char} :
    ∀ ps : List GoStr, ps ≠ [] → (∀ p ∈ ps, sep ∉ p) →
      splitOnChar sep (joinSep sep ps) = ps
  | [], h, _ => absurd rfl h
  | [p], _, h => by
    rw [joinSep]
    exact splitOnChar_of_not_mem (h p (List.mem_cons_self p []))
  | p :: q :: rest, _, h => by
    rw [joinSep]
    rw [splitOnChar_append (h p (List.mem_cons_self p (q :: rest)))]
    rw [splitOnChar_joinSep_eq (q :: rest) (by simp)
      (fun x hx => h x (List.mem_cons_of_mem p hx))]

theorem rstrip_hash_space_props (orig : GoStr) :
    (rstripSpaces ('#' :: ' ' :: orig)).head? = some '#' ∧
    (rstripSpaces ('#' :: ' ' :: orig)).getLast? ≠ some ' ' ∧
    (rstripSpaces ('#' :: ' ' :: orig) ≠ ['#'] →
      (rstripSpaces ('#' :: ' ' :: orig)).take 2 = ['#', ' ']) := by
  have hrev : ('#' :: ' ' :: orig).reverse = orig.reverse ++ [' ', '#'] := by
    simp
  by_cases hx : (orig.reverse.dropWhile fun c => c = ' ') = []
  · have hd : rstripSpaces ('#' :: ' ' :: orig) = ['#'] := by
      unfold rstripSpaces
      rw [hrev, List.dropWhile_append, hx]
      simp [List.dropWhile]
    rw [hd]
    exact ⟨rfl, by decide, fun hne => absurd rfl hne⟩
  · have hd : rstripSpaces ('#' :: ' ' :: orig)
        = '#' :: ' ' :: (orig.reverse.dropWhile fun c => c = ' ').reverse := by
      unfold rstripSpaces
      rw [hrev, List.dropWhile_append]
      rw [if_neg (by simpa using hx)]
      rw [List.reverse_append]
      rfl
    obtain ⟨c, hc⟩ : ∃ c, (orig.reverse.dropWhile fun c => c = ' ').head? = some c := by
      cases hxx : (orig.reverse.dropWhile fun c => c = ' ') with
      | nil => exact absurd hxx hx
      | cons a tl => exact ⟨a, rfl⟩
    have hcne : ¬(c = ' ') := by simpa using dropWhile_head?_false hc
    have hxne : (orig.reverse.dropWhile fun c => c = ' ').reverse ≠ [] := by
      simpa using hx
    rw [hd]
    refine ⟨rfl, ?_, fun _ => rfl⟩
    rw [getLast?_cons_of_ne_nil (by simp), getLast?_cons_of_ne_nil hxne,
      List.getLast?_reverse, hc]
    intro e
    exact hcne (Option.some.inj e)

theorem processCommitLogs_line_shape {logs l : GoStr}
    (h : l ∈ splitOnChar '\n' (processCommitLogs logs)) :
    ∃ orig ∈ splitOnChar '\n' (trimSpace logs),
      l = rstripSpaces ('#' :: ' ' :: orig) := by
  have hbase : ∀ p ∈ splitOnChar '\n' (trimSpace logs), '\n' ∉ p :=
    fun p hp => mem_splitOnChar_not_sep p hp
  have h1 : splitOnChar '\n' (prefixLines (trimSpace logs))
      = (splitOnChar '\n' (trimSpace logs)).map fun x => '#' :: ' ' :: x := by
    unfold prefixLines
    apply splitOnChar_joinSep_eq
    · intro e
      exact splitOnChar_ne_nil '\n' (trimSpace logs) (by simpa using e)
    · intro p hp
      rcases List.mem_map.mp hp with ⟨q, hq, hpe⟩
      subst hpe
      intro hmem
      rcases List.mem_cons.mp hmem with e | e
      · exact absurd e (by decide)
      · rcases List.mem_cons.mp e with e2 | e2
        · exact absurd e2 (by decide)
        · exact hbase q hq e2
  have h2 : splitOnChar '\n' (processCommitLogs logs)
      = ((splitOnChar '\n' (trimSpace logs)).map fun x => '#' :: ' ' :: x).map
          rstripSpaces := by
    unfold processCommitLogs stripTrailing
    rw [h1]
    apply splitOnChar_joinSep_eq
    · intro e
      exact splitOnChar_ne_nil '\n' (trimSpace logs) (by simpa using e)
    · intro p hp
      rcases List.mem_map.mp hp with ⟨q, hq, hpe⟩
      subst hpe
      intro hmem
      have hq2 : '\n' ∈ q := by
        unfold rstripSpaces at hmem
        rw [List.mem_reverse] at hmem
        have h3 := mem_of_mem_dropWhile hmem
        rwa [List.mem_reverse] at h3
      rcases List.mem_map.mp hq with ⟨orig, horig, hqe⟩
      subst hqe
      rcases List.mem_cons.mp hq2 with e | e
      · exact absurd e (by decide)
      · rcases List.mem_cons.mp e with e2 | e2
        · exact absurd e2 (by decide)
        · exact hbase orig horig e2
  rw [h2] at h
  rcases List.mem_map.mp h with ⟨q, hq, hql⟩
  rcases List.mem_map.mp hq with ⟨orig, horig, hqe⟩
  subst hqe
  exact ⟨orig, horig, hql.symm⟩

theorem getLocalBranch_no_colon {s : GoStr} (h : ':' ∉ s) : getLocalBranch s = s := by
  unfold getLocalBranch
  rw [splitOnChar_of_not_mem h]
  rfl

theorem getLocalBranch_after_last_colon (pre t : GoStr) (ht : ':' ∉ t) :
    getLocalBranch (pre ++ ':' :: t) = t := by
  induction pre with
  | nil =>
    unfold getLocalBranch
    rw [List.nil_append, splitOnChar, if_pos rfl, splitOnChar_of_not_mem ht]
    rfl
  | cons c pre2 ih =>
    unfold getLocalBranch at ih ⊢
    rw [List.cons_append, splitOnChar]
    by_cases hc : c = ':'
    · rw [if_pos hc]
      rw [getLastD_cons_of_ne_nil (splitOnChar_ne_nil ':' (pre2 ++ ':' :: t)) [] []]
      exact ih
    · rw [if_neg hc]
      have h2 : 2 ≤ (splitOnChar ':' (pre2 ++ ':' :: t)).length :=
        two_le_length_splitOnChar (by simp)
      cases hps : splitOnChar ':' (pre2 ++ ':' :: t) with
      | nil => exact absurd hps (splitOnChar_ne_nil ':' (pre2 ++ ':' :: t))
      | cons p tl =>
        rw [hps] at ih h2
        have htl : tl ≠ [] := by
          intro e
          subst e
          simp at h2
        rw [getLastD_cons_of_ne_nil htl (c :: p) []]
        rw [getLastD_cons_of_ne_nil htl p []] at ih
        exact ih

theorem parseLoop_cons_nohash (l : GoStr) (rest ts bs : List GoStr)
    (hh : startsWithHash l = false) :
    parseLoop (l :: rest) ts bs
      = if bs.isEmpty && hasNonSpace l then parseLoop rest (ts ++ [l]) bs
        else parseLoop rest ts (bs ++ [l]) := by
  rw [parseLoop]
  simp [hh]

theorem parseLoop_takeWhile (lines : List GoStr) : ∀ ts bs : List GoStr,
    parseLoop lines ts bs
      = parseLoop (lines.takeWhile fun l => !startsWithHash l) ts bs := by
  induction lines with
  | nil => intro ts bs; rfl
  | cons l rest ih =>
    intro ts bs
    cases hh : startsWithHash l with
    | true =>
      have e : (l :: rest).takeWhile (fun x => !startsWithHash x) = [] := by
        simp [List.takeWhile_cons, hh]
      rw [parseLoop, if_pos hh, e]
      rfl
    | false =>
      have e : (l :: rest).takeWhile (fun x => !startsWithHash x)
          = l :: rest.takeWhile (fun x => !startsWithHash x) := by
        simp [List.takeWhile_cons, hh]
      rw [parseLoop_cons_nohash l rest ts bs hh, e,
        parseLoop_cons_nohash l _ ts bs hh]
      by_cases hc : (bs.isEmpty && hasNonSpace l) = true
      · rw [if_pos hc, if_pos hc]
        exact ih _ _
      · rw [if_neg hc, if_neg hc]
        exact ih _ _

/-! ### Theorems for the claims -/

/-- C1, counterexample: for the commit log text joining a, blank, b the
blank middle line of the processed log section becomes exactly the
one-character line hash, which does not start with hash-space, so not
every line of the log section starts with hash-space. -/
theorem C1_counterexample :
    ('#' :: []) ∈ splitOnChar '\n' (processCommitLogs "a\n\nb".toList) ∧
    ¬(∀ l ∈ splitOnChar '\n' (processCommitLogs "a\n\nb".toList),
        l.take 2 = ['#', ' ']) := by
  decide

/-- C1, amended: every line of the log section written by
writePullRequestChanges starts with the comment character and has no
trailing space; every line other than the bare hash (the image of a
blank log line) starts with hash and space. -/
theorem C1_log_section_lines (logs l : GoStr)
    (h : l ∈ splitOnChar '\n' (processCommitLogs logs)) :
    l.head? = some '#' ∧ l.getLast? ≠ some ' ' ∧
      (l ≠ ['#'] → l.take 2 = ['#', ' ']) := by
  rcases processCommitLogs_line_shape h with ⟨orig, _, hle⟩
  subst hle
  exact rstrip_hash_space_props orig

/-- C1, witness for the amended theorem at the commit log joining a,
blank, b and its first processed line. -/
theorem C1_log_section_lines_witness :
    (('#' :: ' ' :: 'a' :: []) ∈
        splitOnChar '\n' (processCommitLogs "a\n\nb".toList)) ∧
    (('#' :: ' ' :: 'a' :: []).head? = some '#' ∧
      ('#' :: ' ' :: 'a' :: []).getLast? ≠ some ' ' ∧
      (('#' :: ' ' :: 'a' :: []) ≠ ['#'] →
        ('#' :: ' ' :: 'a' :: []).take 2 = ['#', ' '])) :=
  ⟨by decide, C1_log_section_lines "a\n\nb".toList _ (by decide)⟩

/-- C2, evaluation at a failing input: the draft written for base BASE,
head HEAD and commit log x starts with a blank line and the header
comment naming base and head, but its fourth line carries the template
spelling reuqest, and no line of the draft reads pull request as the
claim states. -/
theorem C2_template_typo :
    (splitOnChar '\n'
        (writePullRequestChanges "BASE".toList "HEAD".toList "x".toList))[0]?
      = some [] ∧
    (splitOnChar '\n'
        (writePullRequestChanges "BASE".toList "HEAD".toList "x".toList))[1]?
      = some "# Requesting a pull to BASE from HEAD".toList ∧
    (splitOnChar '\n'
        (writePullRequestChanges "BASE".toList "HEAD".toList "x".toList))[3]?
      = some "# Write a message for this pull reuqest. The first block".toList ∧
    "# Write a message for this pull request. The first block".toList ∉
      splitOnChar '\n'
        (writePullRequestChanges "BASE".toList "HEAD".toList "x".toList) := by
  decide

/-- C3, counterexample: for the file text t, blank, a-CR-CR, b the
parsed body is a-CR newline b, no line of the reconstructed text is a
comment line, yet re-parsing the reconstruction strips the carriage
return before the newline and yields a different body, so parsing is
not idempotent as claimed. -/
theorem C3_counterexample :
    (∀ l ∈ goLines ((readTitleAndBodyOfText "t\n\na\r\r\nb\n".toList).1 ++
        '\n' :: '\n' :: (readTitleAndBodyOfText "t\n\na\r\r\nb\n".toList).2),
      startsWithHash l = false) ∧
    readTitleAndBodyOfText ((readTitleAndBodyOfText "t\n\na\r\r\nb\n".toList).1 ++
        '\n' :: '\n' :: (readTitleAndBodyOfText "t\n\na\r\r\nb\n".toList).2)
      ≠ readTitleAndBodyOfText "t\n\na\r\r\nb\n".toList := by
  decide

/-- C3, amended: parsing is idempotent on well-formed input provided
additionally that the re-assembled text holds no carriage return
immediately followed by a newline: when no line of the re-assembled
text title, blank line, body is a comment line and the text has no
such pair, parsing the re-assembled text returns exactly the original
pair. -/
theorem C3_parse_idempotent (t : GoStr)
    (h : ∀ l ∈ goLines ((readTitleAndBodyOfText t).1 ++ '\n' :: '\n' ::
        (readTitleAndBodyOfText t).2), startsWithHash l = false)
    (hcr : hasCRLF ((readTitleAndBodyOfText t).1 ++ '\n' :: '\n' ::
        (readTitleAndBodyOfText t).2) = false) :
    readTitleAndBodyOfText ((readTitleAndBodyOfText t).1 ++ '\n' :: '\n' ::
        (readTitleAndBodyOfText t).2) = readTitleAndBodyOfText t := by
  have ht : trimSpace (readTitleAndBodyOfText t).1 = (readTitleAndBodyOfText t).1 :=
    trimSpace_idem _
  have hb : trimSpace (readTitleAndBodyOfText t).2 = (readTitleAndBodyOfText t).2 :=
    trimSpace_idem _
  have hbcr : hasCRLF (readTitleAndBodyOfText t).2 = false := by
    apply hasCRLF_append_false ((readTitleAndBodyOfText t).1 ++ ['\n', '\n'])
    rw [List.append_assoc]
    exact hcr
  rw [recon_parse _ _ ht hb (title_no_newline t) hbcr h]

/-- C3, witness at the draft text T, blank, B, newline. -/
theorem C3_parse_idempotent_witness :
    ((∀ l ∈ goLines ((readTitleAndBodyOfText "T\n\nB\n".toList).1 ++ '\n' :: '\n' ::
        (readTitleAndBodyOfText "T\n\nB\n".toList).2), startsWithHash l = false) ∧
      hasCRLF ((readTitleAndBodyOfText "T\n\nB\n".toList).1 ++ '\n' :: '\n' ::
        (readTitleAndBodyOfText "T\n\nB\n".toList).2) = false) ∧
    readTitleAndBodyOfText ((readTitleAndBodyOfText "T\n\nB\n".toList).1 ++
        '\n' :: '\n' :: (readTitleAndBodyOfText "T\n\nB\n".toList).2)
      = readTitleAndBodyOfText "T\n\nB\n".toList :=
  ⟨⟨by decide, by decide⟩,
   C3_parse_idempotent "T\n\nB\n".toList (by decide) (by decide)⟩

/-- C4: the parse result of readTitleAndBody is determined solely by
the prefix of lines strictly before the first comment line: parsing the
whole line sequence equals parsing that prefix. -/
theorem C4_prefix_determines (lines : List GoStr) :
    readTitleAndBody lines
      = readTitleAndBody (lines.takeWhile fun l => !startsWithHash l) := by
  unfold readTitleAndBody
  rw [parseLoop_takeWhile]

/-- C5: getLocalBranch returns the substring after the final colon for
inputs containing a colon and returns colon-free inputs unchanged; it
is a total function on strings. -/
theorem C5_getLocalBranch_spec :
    (∀ s : GoStr, ':' ∉ s → getLocalBranch s = s) ∧
    (∀ pre t : GoStr, ':' ∉ t → getLocalBranch (pre ++ ':' :: t) = t) :=
  ⟨fun _ h => getLocalBranch_no_colon h,
   fun pre t h => getLocalBranch_after_last_colon pre t h⟩

/-- C5, witness at the refs branch and owner colon branch. -/
theorem C5_getLocalBranch_spec_witness :
    (':' ∉ "branch".toList ∧ getLocalBranch "branch".toList = "branch".toList) ∧
    (':' ∉ "branch".toList ∧
      getLocalBranch ("owner".toList ++ ':' :: "branch".toList) = "branch".toList) :=
  ⟨⟨by decide, C5_getLocalBranch_spec.1 "branch".toList (by decide)⟩,
   ⟨by decide, C5_getLocalBranch_spec.2 "owner".toList "branch".toList (by decide)⟩⟩

/-- C6: the two concrete drafts of the spec parse to exactly the stated
title and body pairs. -/
theorem C6_concrete_examples :
    readTitleAndBodyOfText "Fix bug\n\nDetails here\nmore details\n# ignored".toList
      = ("Fix bug".toList, "Details here\nmore details".toList) ∧
    readTitleAndBodyOfText "Line one\nLine two\n\nBody line".toList
      = ("Line one Line two".toList, "Body line".toList) :=
  ⟨by decide, by decide⟩

/-- C7: whenever the scratch file read back by the pipeline parses to
an empty title, pullRequest terminates with the fatal empty-title
diagnostic and the submission collaborator is never invoked. -/
theorem C7_empty_title_aborts (d : PRDeps) (base head text : GoStr)
    (hw : d.writeErr = none) (he : d.editErr = none)
    (hr : d.readFile = Except.ok text)
    (ht : (readTitleAndBodyOfText text).1 = []) :
    pullRequest d base head
        = PROutcome.fatalExit "Aborting due to empty pull request title".toList ∧
    (∀ t b bb hh, pullRequest d base head ≠ PROutcome.submitted t b bb hh) ∧
    (∀ t b bb hh m, pullRequest d base head ≠ PROutcome.submittedFatal t b bb hh m) := by
  have hmain : pullRequest d base head
      = PROutcome.fatalExit "Aborting due to empty pull request title".toList := by
    unfold pullRequest
    rw [hw, he, hr]
    simp [ht]
  refine ⟨hmain, fun t b bb hh => ?_, fun t b bb hh m => ?_⟩
  · rw [hmain]
    intro e
    exact PROutcome.noConfusion e
  · rw [hmain]
    intro e
    exact PROutcome.noConfusion e

/-- C7, witness: an edited draft consisting only of a comment line. -/
theorem C7_empty_title_aborts_witness :
    (readTitleAndBodyOfText "# c\n".toList).1 = [] ∧
    pullRequest ⟨none, none, Except.ok "# c\n".toList, none⟩ "b".toList "h".toList
      = PROutcome.fatalExit "Aborting due to empty pull request title".toList :=
  ⟨by decide,
   (C7_empty_title_aborts ⟨none, none, Except.ok "# c\n".toList, none⟩
     "b".toList "h".toList "# c\n".toList rfl rfl rfl (by decide)).1⟩

/-- C8: buildEditCommand appends the flag and filetype tokens exactly
for the editors vim, gvim and mvim, otherwise builds editor and path
only; for vim and nano the commands are as stated and the scratch-file
path is always the final argument. -/
theorem C8_buildEditCommand_spec (e p : GoStr) :
    buildEditCommand e p
      = (if isVimVariant e
          then [e, "-c".toList, "set ft=gitcommit".toList, p]
          else [e, p]) ∧
    (isVimVariant e = true ↔
      (e = "vim".toList ∨ e = "gvim".toList ∨ e = "mvim".toList)) ∧
    buildEditCommand "vim".toList p
      = ["vim".toList, "-c".toList, "set ft=gitcommit".toList, p] ∧
    buildEditCommand "nano".toList p = ["nano".toList, p] ∧
    (buildEditCommand e p).getLast? = some p := by
  have h1 : buildEditCommand e p
      = (if isVimVariant e
          then [e, "-c".toList, "set ft=gitcommit".toList, p]
          else [e, p]) := by
    by_cases hv : isVimVariant e
    · simp [buildEditCommand, hv]
    · simp [buildEditCommand, hv]
  refine ⟨h1, ?_, ?_, ?_, ?_⟩
  · simp only [isVimVariant, Bool.or_eq_true, decide_eq_true_eq]
    tauto
  · have hv : isVimVariant ['v', 'i', 'm'] = true := by decide
    simp [buildEditCommand, hv]
  · have hv : isVimVariant ['n', 'a', 'n', 'o'] = false := by decide
    simp [buildEditCommand, hv]
  · rw [h1]
    by_cases hv : isVimVariant e
    · rw [if_pos hv]
      simp
    · rw [if_neg hv]
      simp

/-- C9: readTitleAndBody has no failure mode at the parser level: for
every stream of readln events, including error terminations anywhere,
it returns a title and body with a nil error component. -/
theorem C9_parse_never_errors (stream : List ReadEvent) :
    ∃ title body : GoStr, readTitleAndBodyE stream = (title, body, none) :=
  ⟨_, _, rfl⟩

/-- C10: a branch ref with a trailing colon degrades to the empty
branch name: getLocalBranch of any string followed by a colon is the
empty string. -/
theorem C10_trailing_colon_empty (s : GoStr) :
    getLocalBranch (s ++ [':']) = [] :=
  getLocalBranch_after_last_colon s [] (by simp)
